import Mathlib

/-!
# Bagel conversation matcher

A shallow embedding of the matching engine of `conversation_matcher/index.js`
(`shuffleArray`, `matchEveryone`, `matchFirstPerson`, `canBeMatched` and the
history update of `startConversations` / `getUsersInfo`) and of the command
parsing of `bagelbot` (`parseCommandArgs`, the `/bio` handler), followed by
the properties proved about them.

Modelling conventions:
* a JavaScript array is a `List`;
* a participant id is a `Nat` (the source only compares ids with `===`,
  `!==` and `Array.prototype.includes`, all of which are equality on ids);
* a thrown `Error` is `Except.error`, with one constructor per `throw` site;
* `Math.random` is an explicit input: the index `j` drawn in the iteration
  with loop variable `i` is `draw i`;
* a JavaScript string is a `List Char`, and a number that may be `NaN` is an
  `Option Int`;
* the effects of the `/bio` handler of `bagelbot/index.js` are the list of
  its requests and answers, and the answers of DynamoDB are inputs.
-/

namespace Bagel

/-! ## Data model -/

/-- The ids of participants (Slack user ids in production, numbers in the tests). -/
abbrev UserId := Nat

/-- The constant object `LOCATION_PREF`. -/
inductive LocationPref where
  | IN_PERSON
  | VIRTUAL
  | NO_PREF
  deriving DecidableEq, Repr

/-- A processed member record, as built by `getUsersInfo`. -/
structure Person where
  id : UserId
  location_pref : LocationPref
  lastThreeMatched : List UserId
  facts : List String
  deriving DecidableEq, Repr

/-- The two `throw` sites of the matcher, each carrying `people.length`, and
the exhaustion of the recursion budget of `matchEveryoneAux` (which
`matchEveryone` never reports, see `matchEveryone_ne_outOfFuel`). -/
inductive MatchError where
  | cantGroup (n : Nat)
  | cantMatch (n : Nat)
  | outOfFuel
  deriving DecidableEq, Repr

/-! ## The matcher -/

/-- The function `canBeMatched`: three guarded early returns, then `true`. -/
def canBeMatched (personOne personTwo : Person) : Bool :=
  if personOne.lastThreeMatched.contains personTwo.id ||
      personTwo.lastThreeMatched.contains personOne.id then
    false
  else if personOne.location_pref == LocationPref.NO_PREF ||
      personTwo.location_pref == LocationPref.NO_PREF then
    true
  else if personOne.location_pref != personTwo.location_pref then
    false
  else
    true

/-- The function `matchFirstPerson`: the first person is paired with the first
later person `canBeMatched` accepts, or with the second person when `find`
returns `undefined`; the remainder is the `filter` of the whole list by the
two chosen ids. -/
def matchFirstPerson (people : List Person) :
    Except MatchError (List UserId × List Person) :=
  match people with
  | personToMatch :: second :: rest =>
    let matchedPerson :=
      match (second :: rest).find? (fun person => canBeMatched personToMatch person) with
      | some person => person
      | none => second
    let remainingPeople :=
      people.filter
        (fun person => person.id != personToMatch.id && person.id != matchedPerson.id)
    Except.ok ([personToMatch.id, matchedPerson.id], remainingPeople)
  | _ => Except.error (MatchError.cantMatch people.length)

/-- The recursion of `matchEveryone`, with an explicit budget of recursive calls. -/
def matchEveryoneAux : Nat → List Person → Except MatchError (List (List UserId))
  | 0, _ => Except.error MatchError.outOfFuel
  | fuel + 1, people =>
    if people.length ≤ 1 then
      Except.error (MatchError.cantGroup people.length)
    else if people.length ≤ 3 then
      Except.ok [people.map (fun person => person.id)]
    else
      match matchFirstPerson people with
      | Except.error e => Except.error e
      | Except.ok (matchedPeople, remainingPeople) =>
        match matchEveryoneAux fuel remainingPeople with
        | Except.error e => Except.error e
        | Except.ok groups => Except.ok (matchedPeople :: groups)

/-- The function `matchEveryone`. Every recursive call is on a strictly shorter
list, so a budget of `people.length + 1` calls is never exhausted. -/
def matchEveryone (people : List Person) : Except MatchError (List (List UserId)) :=
  matchEveryoneAux (people.length + 1) people

/-! ## Shuffle -/

/-- The destructuring assignment `[array[i], array[j]] = [array[j], array[i]]`:
both reads happen first, then `array[i]` and `array[j]` are written in that
order. Both indices are in range wherever `shuffleArray` performs it; outside
the range the model leaves the array alone. -/
def swap {α : Type} (array : List α) (i j : Nat) : List α :=
  match array[i]?, array[j]? with
  | some x, some y => (array.set i y).set j x
  | _, _ => array

/-- The `for` loop of `shuffleArray`, entered with loop variable `i`: it runs
while `i > 0`, swapping positions `i` and `j = draw i`, then decrements `i`. -/
def shuffleLoop {α : Type} (draw : Nat → Nat) : Nat → List α → List α
  | 0, array => array
  | i + 1, array => shuffleLoop draw i (swap array (i + 1) (draw (i + 1)))

/-- The function `shuffleArray`, with the loop variable starting at
`array.length - 1`. -/
def shuffleArray {α : Type} (draw : Nat → Nat) (array : List α) : List α :=
  shuffleLoop draw (array.length - 1) array

/-- The range of `Math.floor(Math.random() * (i + 1))`: in each iteration
`i = n - 1, ..., 1` the drawn index is one of `0, ..., i`. -/
def ValidDraws (n : Nat) (draw : Nat → Nat) : Prop :=
  ∀ i, 1 ≤ i → i < n → draw i ≤ i

/-! ## History update -/

/-- The expression `group.filter((id) => id !== memberId)` of the update loop. -/
def otherMembers (group : List UserId) (memberId : UserId) : List UserId :=
  group.filter (fun id => id != memberId)

/-- The update loop of `startConversations` for one group: one call
`updateLastThreeMatched(memberId, otherMembers)` per member, in group order. -/
def groupUpdates (group : List UserId) : List (UserId × List UserId) :=
  group.map (fun memberId => (memberId, otherMembers group memberId))

/-- The update loop of `startConversations` over all groups. -/
def historyUpdates (groups : List (List UserId)) : List (UserId × List UserId) :=
  groups.flatMap groupUpdates

/-- The update expression of `updateLastThreeMatched`,
`list_append(if_not_exists(#ltm, :empty_list), :p)`, on the stored attribute
`last_three_matched` (`none` when the attribute does not exist). -/
def updateLastThreeMatched (stored : Option (List UserId)) (otherUserIds : List UserId) :
    List UserId :=
  stored.getD [] ++ otherUserIds

/-- The method call `.slice(-3)`: the last three elements, or all of them when
there are fewer. -/
def sliceLast3 {α : Type} (xs : List α) : List α :=
  xs.drop (xs.length - 3)

/-- The field `lastThreeMatched` computed by `getUsersInfo`,
`(userInfo['last_three_matched'] || []).slice(-3)`. -/
def readLastThreeMatched (stored : Option (List UserId)) : List UserId :=
  sliceLast3 (stored.getD [])

/-! ## Command parsing (`bagelbot`) -/

/-- The straight double quote, U+0022. -/
def dquote : Char := Char.ofNat 34

/-- The left curly double quote, U+201C. -/
def ldquote : Char := Char.ofNat 8220

/-- The right curly double quote, U+201D. -/
def rdquote : Char := Char.ofNat 8221

/-- The character class of the three double quotes in the regex of
`bagelbot/index.js`. -/
def isQuote (c : Char) : Bool :=
  c == dquote || c == ldquote || c == rdquote

/-- The one-character class of the straight double quote in the regex of
`bagelbot/app.js`. -/
def isStraightQuote (c : Char) : Bool :=
  c == dquote

/-- The class `\s` of JavaScript regular expressions (its complement is `\S`):
tab, line feed, vertical tab, form feed, carriage return, space, U+00A0,
U+1680, U+2000 to U+200A, U+2028, U+2029, U+202F, U+205F, U+3000, U+FEFF. -/
def isJsWhitespace (c : Char) : Bool :=
  c.toNat == 9 || c.toNat == 10 || c.toNat == 11 || c.toNat == 12 || c.toNat == 13 ||
    c.toNat == 32 || c.toNat == 160 || c.toNat == 5760 ||
    (8192 ≤ c.toNat && c.toNat ≤ 8202) || c.toNat == 8232 || c.toNat == 8233 ||
    c.toNat == 8239 || c.toNat == 8287 || c.toNat == 12288 || c.toNat == 65279

/-- One element of `rawArgs.matchAll(regex)`: `whole` is `match[0]`, and
`group1` is `match[1]` (`none` for `undefined`, when the second alternative
matched). -/
structure RegexMatch where
  whole : List Char
  group1 : Option (List Char)
  deriving DecidableEq, Repr

/-- The group `([^q]+)` followed by a closing quote, tried at the text `t` that
follows an opening quote. The quantifier is greedy: it first takes `k + 1`
characters, where `k + 1` is the length of the longest run of non-quotes, and
gives back one character at a time while no quote follows. It returns the
captured text, the closing quote and the rest of the input. -/
def matchQuotedBody (quote : Char → Bool) (t : List Char) :
    Nat → Option (List Char × Char × List Char)
  | 0 => none
  | k + 1 =>
    match t.drop (k + 1) with
    | q :: rest =>
      if quote q then some (t.take (k + 1), q, rest) else matchQuotedBody quote t k
    | [] => matchQuotedBody quote t k

/-- The first alternative of the regex, an opening quote, `([^q]+)` and a
closing quote, tried at the start of `s`: the match and the rest of the input. -/
def matchQuoted (quote : Char → Bool) (s : List Char) : Option (RegexMatch × List Char) :=
  match s with
  | [] => none
  | q :: t =>
    if quote q then
      match matchQuotedBody quote t (t.takeWhile (fun c => !quote c)).length with
      | some (body, q2, rest) => some (⟨q :: (body ++ [q2]), some body⟩, rest)
      | none => none
    else
      none

/-- The second alternative of the regex, `\S+`, tried at the start of `s`:
nothing follows it in the pattern, so the greedy run is the match. -/
def matchBare (s : List Char) : Option (RegexMatch × List Char) :=
  if (s.takeWhile (fun c => !isJsWhitespace c)).isEmpty then
    none
  else
    some (⟨s.takeWhile (fun c => !isJsWhitespace c), none⟩,
      s.dropWhile (fun c => !isJsWhitespace c))

/-- The whole regex tried at the start of `s`: the first alternative, and the
second one when the first fails. -/
def matchAt (quote : Char → Bool) (s : List Char) : Option (RegexMatch × List Char) :=
  match matchQuoted quote s with
  | some r => some r
  | none => matchBare s

/-- The iteration of `matchAll` with the `g` flag, with an explicit budget of
steps: after a match the search resumes at its end, and where the regex does
not match the search moves on by one character. -/
def matchAllAux (quote : Char → Bool) : Nat → List Char → List RegexMatch
  | 0, _ => []
  | fuel + 1, s =>
    match s with
    | [] => []
    | _ :: tail =>
      match matchAt quote s with
      | some (m, rest) => m :: matchAllAux quote fuel rest
      | none => matchAllAux quote fuel tail

/-- The matches of `rawArgs.matchAll(regex)`. Every step consumes at least one
character, so a budget of `s.length + 1` steps is never exhausted (see
`matchAllAux_fuel`). -/
def matchAll (quote : Char → Bool) (s : List Char) : List RegexMatch :=
  matchAllAux quote (s.length + 1) s

/-- The callback `match => match[1] || match[0]`: an `undefined` or empty
`match[1]` is falsy. -/
def argOfMatch (m : RegexMatch) : List Char :=
  match m.group1 with
  | some g => if g.isEmpty then m.whole else g
  | none => m.whole

/-- The function `parseCommandArgs` of `bagelbot/index.js`. -/
def parseCommandArgs (rawArgs : List Char) : List (List Char) :=
  (matchAll isQuote rawArgs).map argOfMatch

/-- The function `parseCommandArgs` of `bagelbot/app.js`, whose regex only knows
the straight double quote. -/
def parseCommandArgsApp (rawArgs : List Char) : List (List Char) :=
  (matchAll isStraightQuote rawArgs).map argOfMatch

/-- The documented command syntax, one argument: an argument of several words
(one that contains whitespace) is enclosed by double quotes, any other is
written as it is. -/
def writeArg (arg : List Char) : List Char :=
  if arg.any isJsWhitespace then dquote :: (arg ++ [dquote]) else arg

/-- The documented command syntax: the written arguments, joined by single
spaces. -/
def writeCommandText (args : List (List Char)) : List Char :=
  [' '].intercalate (args.map writeArg)

/-! ## The `/bio` command (`bagelbot`) -/

/-- The value of a digit character in the given radix, as in `parseInt`. -/
def digitValue (radix : Nat) (c : Char) : Option Nat :=
  if 48 ≤ c.toNat ∧ c.toNat ≤ 57 then
    (if c.toNat - 48 < radix then some (c.toNat - 48) else none)
  else if 97 ≤ c.toNat ∧ c.toNat ≤ 122 then
    (if c.toNat - 87 < radix then some (c.toNat - 87) else none)
  else if 65 ≤ c.toNat ∧ c.toNat ≤ 90 then
    (if c.toNat - 55 < radix then some (c.toNat - 55) else none)
  else
    none

/-- The sign step of `parseInt`: a leading `-` or `+` is removed, and `-`
makes the sign negative. -/
def parseIntSign (s : List Char) : Int × List Char :=
  match s with
  | c :: t => if c.toNat = 45 then (-1, t) else if c.toNat = 43 then (1, t) else (1, s)
  | [] => (1, s)

/-- The radix step of `parseInt` called without a radix: a prefix `0x` or `0X`
is removed and selects radix 16, otherwise the radix is 10. -/
def parseIntRadix (s : List Char) : Nat × List Char :=
  match s with
  | c :: d :: t =>
    if c.toNat = 48 ∧ (d.toNat = 120 ∨ d.toNat = 88) then (16, t) else (10, s)
  | _ => (10, s)

/-- The built-in `parseInt(string)`, with `none` for `NaN`. An `undefined`
argument is first turned into the text `undefined`. Leading whitespace is
dropped, then the sign and the radix prefix; the longest prefix of digits is
read, and there is no number when that prefix is empty. (The rounding of
integers beyond 2^53 to a double is not modelled.) -/
def parseInt (string : Option (List Char)) : Option Int :=
  let inputString := string.getD "undefined".toList
  let signed := parseIntSign (inputString.dropWhile isJsWhitespace)
  let prefixed := parseIntRadix signed.2
  let digits := prefixed.2.takeWhile (fun c => (digitValue prefixed.1 c).isSome)
  if digits.isEmpty then
    none
  else
    some (signed.1 *
      (digits.foldl (fun acc c => acc * prefixed.1 + (digitValue prefixed.1 c).getD 0) 0 : Nat))

/-- The comparison `x === y` on numbers, with `none` for `NaN`: `NaN` is not
equal to anything, itself included. -/
def jsStrictEquals (x y : Option Int) : Bool :=
  match x, y with
  | some a, some b => a == b
  | _, _ => false

/-- The property access `facts[index]` on an array, with `none` for
`undefined`: only a non-negative integer index reads an element. -/
def jsIndex (facts : List (List Char)) (index : Option Int) : Option (List Char) :=
  match index with
  | some (Int.ofNat i) => facts[i]?
  | _ => none

/-- The texts the `/bio` handler puts in `errorMessage` or `successMessage`,
one constructor per assignment, with the interpolated values as arguments. -/
inductive BioMessage where
  | needFact
  | added (fact : List Char)
  | needIndex
  | noProfile
  | removed (fact : List Char)
  | unableToDelete (index : Option Int)
  | unknownCommand
  deriving DecidableEq, Repr

/-- What the `/bio` handler does to the outside: the acknowledgement, the
three DynamoDB requests, and the two ways of answering. -/
inductive BioEffect where
  | ack
  | addUserFact (userId : UserId) (fact : List Char)
  | removeUserFact (userId : UserId) (index : Option Int)
  | getUserFacts (userId : UserId)
  | say (facts : List (List Char)) (note : Bool)
  | respond (message : BioMessage)
  deriving DecidableEq, Repr

/-- The handler of `app.command('/bio')`, as the list of its effects in order.
The answers of DynamoDB are inputs: `removeReply` is the `facts` column of
`response.Attributes` and `showReply` that of `userFacts.Item` (`none` when
the object is `undefined`). -/
def bioCommand (text : List Char) (userId : UserId)
    (removeReply showReply : Option (List (List Char))) : List BioEffect :=
  let args := parseCommandArgs text
  let operation := args[0]?
  if operation = some "add".toList then
    match args[1]? with
    | none => [BioEffect.ack, BioEffect.respond BioMessage.needFact]
    | some fact =>
      [BioEffect.ack, BioEffect.addUserFact userId fact,
        BioEffect.respond (BioMessage.added fact)]
  else if operation = some "remove".toList then
    let indexToRemove := parseInt args[1]?
    if jsStrictEquals indexToRemove none then
      [BioEffect.ack, BioEffect.respond BioMessage.needIndex]
    else
      match removeReply with
      | none =>
        [BioEffect.ack, BioEffect.removeUserFact userId indexToRemove,
          BioEffect.respond BioMessage.noProfile]
      | some facts =>
        match jsIndex facts indexToRemove with
        | some removedFact =>
          [BioEffect.ack, BioEffect.removeUserFact userId indexToRemove,
            BioEffect.respond (BioMessage.removed removedFact)]
        | none =>
          [BioEffect.ack, BioEffect.removeUserFact userId indexToRemove,
            BioEffect.respond (BioMessage.unableToDelete indexToRemove)]
  else if operation = some "show".toList then
    match showReply with
    | none =>
      [BioEffect.ack, BioEffect.getUserFacts userId, BioEffect.respond BioMessage.noProfile]
    | some facts =>
      if facts.length = 0 then
        [BioEffect.ack, BioEffect.getUserFacts userId, BioEffect.respond BioMessage.noProfile]
      else
        [BioEffect.ack, BioEffect.getUserFacts userId,
          BioEffect.say facts (decide (facts.length > 3))]
  else
    [BioEffect.ack, BioEffect.respond BioMessage.unknownCommand]

/-! ## Example inputs -/

deriving instance DecidableEq for Except

/-- The roster `[A(IN_PERSON), B(VIRTUAL), C(IN_PERSON), D(VIRTUAL)]`, with empty histories. -/
def rosterABCD : List Person :=
  [⟨1, LocationPref.IN_PERSON, [], []⟩, ⟨2, LocationPref.VIRTUAL, [], []⟩,
   ⟨3, LocationPref.IN_PERSON, [], []⟩, ⟨4, LocationPref.VIRTUAL, [], []⟩]

/-- Five people, no two of whom can be matched: the location preferences
alternate, and people of equal preference have met recently. -/
def rosterFive : List Person :=
  [⟨1, LocationPref.IN_PERSON, [3, 5], []⟩, ⟨2, LocationPref.VIRTUAL, [4], []⟩,
   ⟨3, LocationPref.IN_PERSON, [5], []⟩, ⟨4, LocationPref.VIRTUAL, [], []⟩,
   ⟨5, LocationPref.IN_PERSON, [], []⟩]

/-! # Theorems -/

/-! ## The compatibility predicate -/

/-- The early returns of `canBeMatched` as one boolean expression. -/
theorem canBeMatched_eq (a b : Person) :
    canBeMatched a b =
      (!(a.lastThreeMatched.contains b.id || b.lastThreeMatched.contains a.id) &&
        (a.location_pref == LocationPref.NO_PREF || b.location_pref == LocationPref.NO_PREF ||
          a.location_pref == b.location_pref)) := by
  unfold canBeMatched
  cases a.lastThreeMatched.contains b.id <;> cases b.lastThreeMatched.contains a.id <;>
    cases a.location_pref <;> cases b.location_pref <;> rfl

/-- Claim C4: `canBeMatched a b` is true exactly when neither id is in the
other's `lastThreeMatched` and one of the two location preferences is `NO_PREF`
or the two are equal; in particular it is false whenever `b.id` is in
`a.lastThreeMatched` or `a.id` is in `b.lastThreeMatched`, whatever the
preferences. -/
theorem canBeMatched_iff (a b : Person) :
    (canBeMatched a b = true ↔
      (b.id ∉ a.lastThreeMatched ∧ a.id ∉ b.lastThreeMatched) ∧
        (a.location_pref = LocationPref.NO_PREF ∨ b.location_pref = LocationPref.NO_PREF ∨
          a.location_pref = b.location_pref)) ∧
    (b.id ∈ a.lastThreeMatched ∨ a.id ∈ b.lastThreeMatched → canBeMatched a b = false) := by
  rw [canBeMatched_eq]
  constructor
  · simp only [Bool.and_eq_true, Bool.not_eq_true', Bool.or_eq_false_iff, Bool.or_eq_true,
      beq_iff_eq, decide_eq_false_iff_not, List.elem_eq_mem, or_assoc]
  · rintro (h | h) <;> simp [h]

/-- Claim C9: `canBeMatched` is symmetric in outcome,
`canBeMatched a b = canBeMatched b a` for every two participants. -/
theorem canBeMatched_symm (a b : Person) : canBeMatched a b = canBeMatched b a := by
  rw [canBeMatched_eq, canBeMatched_eq]
  cases a.lastThreeMatched.contains b.id <;> cases b.lastThreeMatched.contains a.id <;>
    cases a.location_pref <;> cases b.location_pref <;> rfl

/-! ## Pair extraction -/

/-- The partner `matchFirstPerson` picks for `p0` among `p1 :: rest`. -/
theorem matchFirstPerson_cons_cons (p0 p1 : Person) (rest : List Person) :
    matchFirstPerson (p0 :: p1 :: rest) =
      Except.ok
        ([p0.id, (((p1 :: rest).find? (fun person => canBeMatched p0 person)).getD p1).id],
          (p0 :: p1 :: rest).filter (fun person =>
            person.id != p0.id &&
              person.id != (((p1 :: rest).find? (fun person => canBeMatched p0 person)).getD p1).id)) := by
  cases h : (p1 :: rest).find? (fun person => canBeMatched p0 person) <;>
    simp only [matchFirstPerson, h, Option.getD_none, Option.getD_some]

/-- The partner is the first compatible candidate, or the second person when there is none. -/
theorem partner_split (p0 p1 : Person) (rest : List Person) :
    (∃ pre post, p1 :: rest =
          pre ++ (((p1 :: rest).find? (fun person => canBeMatched p0 person)).getD p1) :: post ∧
        canBeMatched p0 (((p1 :: rest).find? (fun person => canBeMatched p0 person)).getD p1) = true ∧
        ∀ x ∈ pre, canBeMatched p0 x = false) ∨
      ((((p1 :: rest).find? (fun person => canBeMatched p0 person)).getD p1) = p1 ∧
        ∀ x ∈ p1 :: rest, canBeMatched p0 x = false) := by
  cases h : (p1 :: rest).find? (fun person => canBeMatched p0 person) with
  | none =>
    right
    refine ⟨rfl, ?_⟩
    intro x hx
    have := List.find?_eq_none.mp h x hx
    simpa using this
  | some c =>
    left
    obtain ⟨hc, pre, post, hsplit, hpre⟩ := List.find?_eq_some.mp h
    refine ⟨pre, post, hsplit, hc, ?_⟩
    intro x hx
    simpa using hpre x hx

/-- Filtering out two ids from a list with distinct ids removes exactly their owners. -/
theorem filter_ids_split (p0 c : Person) (pre post : List Person)
    (hnd : ((p0 :: (pre ++ c :: post)).map (fun person => person.id)).Nodup) :
    (p0 :: (pre ++ c :: post)).filter (fun person => person.id != p0.id && person.id != c.id) =
      pre ++ post := by
  simp only [List.map_cons, List.map_append, List.nodup_cons, List.mem_append, List.mem_map,
    List.mem_cons, List.nodup_append, List.nodup_middle, List.disjoint_cons_right,
    not_or, not_exists, not_and] at hnd
  obtain ⟨⟨h0pre, h0c, h0post⟩, -, ⟨hcpost, -⟩, hcpre, -⟩ := hnd
  have hpre : pre.filter (fun person => person.id != p0.id && person.id != c.id) = pre := by
    apply List.filter_eq_self.mpr
    intro a ha
    have h1 : a.id ≠ c.id := fun h => hcpre a ha h
    simp [h0pre a ha, h1]
  have hpost : post.filter (fun person => person.id != p0.id && person.id != c.id) = post := by
    apply List.filter_eq_self.mpr
    intro a ha
    simp [h0post a ha, hcpost a ha]
  simp [List.filter_cons, hpre, hpost]

/-- With distinct ids, `matchFirstPerson` splits the list around the chosen partner. -/
theorem matchFirstPerson_split (p0 p1 : Person) (rest : List Person)
    (hnd : ((p0 :: p1 :: rest).map (fun person => person.id)).Nodup) :
    ∃ c pre post, p1 :: rest = pre ++ c :: post ∧
      matchFirstPerson (p0 :: p1 :: rest) = Except.ok ([p0.id, c.id], pre ++ post) ∧
      ((canBeMatched p0 c = true ∧ ∀ x ∈ pre, canBeMatched p0 x = false) ∨
        (pre = [] ∧ ∀ x ∈ p1 :: rest, canBeMatched p0 x = false)) := by
  rw [matchFirstPerson_cons_cons]
  rcases partner_split p0 p1 rest with ⟨pre, post, hsplit, hc, hpre⟩ | ⟨hc, hall⟩
  · refine ⟨_, pre, post, hsplit, ?_, Or.inl ⟨hc, hpre⟩⟩
    have key := filter_ids_split p0 _ pre post (by rw [← hsplit]; exact hnd)
    rw [← hsplit] at key
    rw [key]
  · refine ⟨p1, [], rest, rfl, ?_, Or.inr ⟨rfl, hall⟩⟩
    rw [hc]
    have key := filter_ids_split p0 p1 [] rest hnd
    simp only [List.nil_append] at key ⊢
    rw [key]

/-- The remainder of `matchFirstPerson` is strictly shorter than its input. -/
theorem matchFirstPerson_length_lt (people : List Person) (pair : List UserId)
    (remaining : List Person) (h : matchFirstPerson people = Except.ok (pair, remaining)) :
    remaining.length < people.length := by
  match people, h with
  | [], h => simp [matchFirstPerson] at h
  | [_], h => simp [matchFirstPerson] at h
  | p0 :: p1 :: rest, h =>
    rw [matchFirstPerson_cons_cons] at h
    injection h with h
    injection h with _ h
    rw [← h, List.filter_cons]
    have hle := List.length_filter_le (fun person : Person => person.id != p0.id &&
      person.id != (((p1 :: rest).find? (fun person => canBeMatched p0 person)).getD p1).id)
      (p1 :: rest)
    simp only [bne_self_eq_false, Bool.false_and, Bool.false_eq_true, ↓reduceIte, List.length_cons] at hle ⊢
    omega

/-! ## The recursion of the partitioner -/

/-- On two or more people `matchFirstPerson` returns. -/
theorem matchFirstPerson_ok (people : List Person) (h : 2 ≤ people.length) :
    ∃ pair remaining, matchFirstPerson people = Except.ok (pair, remaining) := by
  match people, h with
  | p0 :: p1 :: rest, _ => exact ⟨_, _, matchFirstPerson_cons_cons p0 p1 rest⟩

/-- One unfolding of the recursion of `matchEveryone` on four or more people. -/
theorem matchEveryoneAux_succ (fuel : Nat) (people : List Person) (h : 4 ≤ people.length) :
    matchEveryoneAux (fuel + 1) people =
      match matchFirstPerson people with
      | Except.error e => Except.error e
      | Except.ok (matchedPeople, remainingPeople) =>
        match matchEveryoneAux fuel remainingPeople with
        | Except.error e => Except.error e
        | Except.ok groups => Except.ok (matchedPeople :: groups) := by
  rw [matchEveryoneAux, if_neg (by omega), if_neg (by omega)]

/-- Any budget above the length of the list gives the same result. -/
theorem matchEveryoneAux_fuel (n m : Nat) (people : List Person)
    (hn : people.length < n) (hm : people.length < m) :
    matchEveryoneAux n people = matchEveryoneAux m people := by
  induction n generalizing m people with
  | zero => omega
  | succ n ih =>
    cases m with
    | zero => omega
    | succ m =>
      by_cases h4 : 4 ≤ people.length
      · rw [matchEveryoneAux_succ n people h4, matchEveryoneAux_succ m people h4]
        cases hfp : matchFirstPerson people with
        | error e => rfl
        | ok r =>
          obtain ⟨pair, remaining⟩ := r
          have hlt := matchFirstPerson_length_lt people pair remaining hfp
          simp only
          rw [ih m remaining (by omega) (by omega)]
      · simp only [matchEveryoneAux]
        split
        · rfl
        · rw [if_pos (by omega), if_pos (by omega)]

/-- The budget chosen by `matchEveryone` is as good as any larger one. -/
theorem matchEveryone_eq_aux (n : Nat) (people : List Person) (hn : people.length < n) :
    matchEveryoneAux n people = matchEveryone people :=
  matchEveryoneAux_fuel n (people.length + 1) people hn (Nat.lt_succ_self _)

/-- The first branch of `matchEveryone`: the error on fewer than two people. -/
theorem matchEveryone_small (people : List Person) (h : people.length ≤ 1) :
    matchEveryone people = Except.error (MatchError.cantGroup people.length) := by
  rw [matchEveryone, matchEveryoneAux, if_pos h]

/-- The second branch of `matchEveryone`: two or three people form one group. -/
theorem matchEveryone_base (people : List Person) (h2 : 2 ≤ people.length)
    (h3 : people.length ≤ 3) :
    matchEveryone people = Except.ok [people.map (fun person => person.id)] := by
  rw [matchEveryone, matchEveryoneAux, if_neg (by omega), if_pos h3]

/-- The third branch of `matchEveryone`: one pair, then the recursive call. -/
theorem matchEveryone_step (people : List Person) (h : 4 ≤ people.length)
    (pair : List UserId) (remaining : List Person)
    (hfp : matchFirstPerson people = Except.ok (pair, remaining)) :
    matchEveryone people =
      match matchEveryone remaining with
      | Except.error e => Except.error e
      | Except.ok groups => Except.ok (pair :: groups) := by
  have hlt := matchFirstPerson_length_lt people pair remaining hfp
  rw [matchEveryone, matchEveryoneAux_succ _ people h, hfp]
  simp only
  rw [matchEveryone_eq_aux _ remaining hlt]

/-- The budget of `matchEveryone` is never exhausted. -/
theorem matchEveryone_ne_outOfFuel (people : List Person) :
    matchEveryone people ≠ Except.error MatchError.outOfFuel := by
  generalize h : people.length = n
  induction n using Nat.strong_induction_on generalizing people with
  | _ n ih =>
    by_cases h1 : people.length ≤ 1
    · rw [matchEveryone_small people h1]; simp
    · by_cases h3 : people.length ≤ 3
      · rw [matchEveryone_base people (by omega) h3]; simp
      · obtain ⟨pair, remaining, hfp⟩ := matchFirstPerson_ok people (by omega)
        have hlt := matchFirstPerson_length_lt _ pair remaining hfp
        rw [matchEveryone_step _ (by omega) pair remaining hfp]
        have := ih remaining.length (by omega) remaining rfl
        cases hr : matchEveryone remaining with
        | error e =>
          simp only [ne_eq, Except.error.injEq]
          rw [hr] at this
          simpa using this
        | ok gs => simp

/-- What `matchEveryone` returns on a roster of two or more people with distinct ids. -/
theorem matchEveryone_groups (people : List Person) (h2 : 2 ≤ people.length)
    (hnd : (people.map (fun person => person.id)).Nodup) :
    ∃ gs, matchEveryone people = Except.ok gs ∧
      gs.flatten.Perm (people.map (fun person => person.id)) ∧
      (∀ g ∈ gs, g.length = 2 ∨ g.length = 3) ∧
      gs.length = people.length / 2 ∧
      (gs.filter (fun g => g.length == 3)).length = people.length % 2 := by
  generalize h : people.length = n
  induction n using Nat.strong_induction_on generalizing people with
  | _ n ih =>
    by_cases h3 : people.length ≤ 3
    · refine ⟨_, matchEveryone_base people h2 h3, by simp, ?_, ?_, ?_⟩
      · intro g hg
        simp only [List.mem_singleton] at hg
        subst hg
        simp only [List.length_map]
        omega
      · simp only [List.length_singleton]; omega
      · have : people.length = 2 ∨ people.length = 3 := by omega
        rcases this with h' | h' <;> simp [List.filter_cons, h', ← h]
    · match people, h2, h3, hnd, h with
      | p0 :: p1 :: rest, _, h3, hnd, h =>
        obtain ⟨c, pre, post, hsplit, hfp, -⟩ := matchFirstPerson_split p0 p1 rest hnd
        have hlen : (pre ++ post).length + 2 = n := by
          have := congrArg List.length hsplit
          simp only [List.length_cons, List.length_append] at this h ⊢
          omega
        have hsub : (pre ++ post).Sublist (p0 :: p1 :: rest) := by
          rw [hsplit]
          exact ((List.Sublist.refl pre).append (List.sublist_cons_self c post)).trans
            (List.sublist_cons_self p0 _)
        have hnd' : ((pre ++ post).map (fun person => person.id)).Nodup :=
          List.Nodup.sublist (hsub.map _) hnd
        simp only [List.length_cons] at h3
        obtain ⟨gs, hgs, hperm, hsize, hcount, htrip⟩ :=
          ih (pre ++ post).length (by omega) (pre ++ post) (by omega) hnd' rfl
        refine ⟨[p0.id, c.id] :: gs, ?_, ?_, ?_, ?_, ?_⟩
        · rw [matchEveryone_step _ (by simp only [List.length_cons]; omega) _ _ hfp, hgs]
        · rw [hsplit]
          simp only [List.flatten_cons, List.cons_append, List.nil_append, List.map_cons,
            List.map_append, List.perm_cons]
          refine List.Perm.trans ?_ List.perm_middle.symm
          rw [← List.map_append]
          exact List.Perm.cons _ hperm
        · intro g hg
          rcases List.mem_cons.mp hg with rfl | hg
          · left; rfl
          · exact hsize g hg
        · simp only [List.length_cons, hcount]; omega
        · have h23 : (([p0.id, c.id] : List UserId).length == 3) = false := rfl
          rw [List.filter_cons, h23]
          simp only [Bool.false_eq_true, ↓reduceIte, htrip]
          omega

/-! ## Claims about the partitioner -/

/-- Claim C1: for a roster of `n ≥ 2` participants with pairwise distinct ids,
the groups returned by `matchEveryone`, concatenated in order, are a
permutation of the roster's ids: the total membership is `n`, every
participant's id appears, and no id appears twice (in one group or in two). -/
theorem matchEveryone_perm (people : List Person) (h2 : 2 ≤ people.length)
    (hnd : (people.map (fun person => person.id)).Nodup) :
    ∃ gs, matchEveryone people = Except.ok gs ∧
      gs.flatten.Perm (people.map (fun person => person.id)) ∧
      gs.flatten.length = people.length ∧
      (∀ person ∈ people, person.id ∈ gs.flatten) ∧
      gs.flatten.Nodup := by
  obtain ⟨gs, hgs, hperm, -⟩ := matchEveryone_groups people h2 hnd
  refine ⟨gs, hgs, hperm, ?_, ?_, ?_⟩
  · rw [hperm.length_eq, List.length_map]
  · intro person hp
    exact hperm.mem_iff.mpr (List.mem_map_of_mem _ hp)
  · exact hperm.nodup_iff.mpr hnd

theorem matchEveryone_perm_witness :
    2 ≤ rosterABCD.length ∧ (rosterABCD.map (fun person => person.id)).Nodup ∧
    ∃ gs, matchEveryone rosterABCD = Except.ok gs ∧
      gs.flatten.Perm (rosterABCD.map (fun person => person.id)) ∧
      gs.flatten.length = rosterABCD.length ∧
      (∀ person ∈ rosterABCD, person.id ∈ gs.flatten) ∧
      gs.flatten.Nodup :=
  ⟨by decide, by decide, matchEveryone_perm rosterABCD (by decide) (by decide)⟩

/-- Claim C2: for a roster of `n ≥ 2` participants with pairwise distinct ids,
every group returned by `matchEveryone` has exactly 2 or 3 ids, the number of
3-id groups is 0 when `n` is even and 1 when `n` is odd, and there are
`n / 2` (rounded down) groups in all. -/
theorem matchEveryone_sizes (people : List Person) (h2 : 2 ≤ people.length)
    (hnd : (people.map (fun person => person.id)).Nodup) :
    ∃ gs, matchEveryone people = Except.ok gs ∧
      (∀ g ∈ gs, g.length = 2 ∨ g.length = 3) ∧
      (people.length % 2 = 0 → (gs.filter (fun g => g.length == 3)).length = 0) ∧
      (people.length % 2 = 1 → (gs.filter (fun g => g.length == 3)).length = 1) ∧
      (gs.filter (fun g => g.length == 3)).length ≤ 1 ∧
      gs.length = people.length / 2 := by
  obtain ⟨gs, hgs, -, hsize, hcount, htrip⟩ := matchEveryone_groups people h2 hnd
  refine ⟨gs, hgs, hsize, ?_, ?_, ?_, hcount⟩
  · intro h; rw [htrip, h]
  · intro h; rw [htrip, h]
  · rw [htrip]; omega

theorem matchEveryone_sizes_witness :
    2 ≤ rosterFive.length ∧ (rosterFive.map (fun person => person.id)).Nodup ∧
    ∃ gs, matchEveryone rosterFive = Except.ok gs ∧
      (∀ g ∈ gs, g.length = 2 ∨ g.length = 3) ∧
      (rosterFive.length % 2 = 0 → (gs.filter (fun g => g.length == 3)).length = 0) ∧
      (rosterFive.length % 2 = 1 → (gs.filter (fun g => g.length == 3)).length = 1) ∧
      (gs.filter (fun g => g.length == 3)).length ≤ 1 ∧
      gs.length = rosterFive.length / 2 :=
  ⟨by decide, by decide, matchEveryone_sizes rosterFive (by decide) (by decide)⟩

/-- Claim C3: on a list of at least two participants, the pair returned by
`matchFirstPerson` is `[people[0].id, c.id]`, where `c` is the first element
after `people[0]`, in list order, that `canBeMatched` accepts for `people[0]`;
when no later element is accepted, `c` is `people[1]`. -/
theorem matchFirstPerson_pair (p0 p1 : Person) (rest : List Person) :
    ∃ c remaining,
      matchFirstPerson (p0 :: p1 :: rest) = Except.ok ([p0.id, c.id], remaining) ∧
      ((∃ pre post, p1 :: rest = pre ++ c :: post ∧ canBeMatched p0 c = true ∧
          ∀ x ∈ pre, canBeMatched p0 x = false) ∨
        (c = p1 ∧ ∀ x ∈ p1 :: rest, canBeMatched p0 x = false)) :=
  ⟨_, _, matchFirstPerson_cons_cons p0 p1 rest, partner_split p0 p1 rest⟩

/-- Claim C6: the insufficient-participants error is raised exactly when fewer
than two participants are supplied: `matchEveryone` and `matchFirstPerson`
both throw on a list of length 0 or 1, and on a list of two or more
participants with pairwise distinct ids both return (no error branch is
reached in the recursion, since an error would propagate to the result). -/
theorem insufficient_participants (people : List Person)
    (hnd : (people.map (fun person => person.id)).Nodup) :
    (people.length < 2 →
      matchEveryone people = Except.error (MatchError.cantGroup people.length) ∧
      matchFirstPerson people = Except.error (MatchError.cantMatch people.length)) ∧
    (2 ≤ people.length →
      (∃ gs, matchEveryone people = Except.ok gs) ∧
      (∃ r, matchFirstPerson people = Except.ok r)) := by
  constructor
  · intro h
    refine ⟨matchEveryone_small people (by omega), ?_⟩
    match people, h with
    | [], _ => rfl
    | [_], _ => rfl
  · intro h
    obtain ⟨gs, hgs, -⟩ := matchEveryone_groups people h hnd
    obtain ⟨pair, remaining, hfp⟩ := matchFirstPerson_ok people h
    exact ⟨⟨gs, hgs⟩, ⟨_, hfp⟩⟩

theorem insufficient_participants_witness :
    ((rosterABCD.map (fun person => person.id)).Nodup ∧
      2 ≤ rosterABCD.length ∧
      (∃ gs, matchEveryone rosterABCD = Except.ok gs) ∧
      (∃ r, matchFirstPerson rosterABCD = Except.ok r)) ∧
    ((([] : List Person).map (fun person => person.id)).Nodup ∧
      ([] : List Person).length < 2 ∧
      matchEveryone [] = Except.error (MatchError.cantGroup 0) ∧
      matchFirstPerson [] = Except.error (MatchError.cantMatch 0)) :=
  ⟨⟨by decide, by decide, (insufficient_participants rosterABCD (by decide)).2 (by decide)⟩,
    ⟨by decide, by decide, (insufficient_participants [] (by decide)).1 (by decide)⟩⟩

/-- Claim C7, as the code has it: on a roster of five participants with
pairwise distinct ids, no two of whom satisfy `canBeMatched`, `matchEveryone`
returns two groups, the fallback pair of the first two people and the triplet
of the other three, whose total membership is 5. -/
theorem matchEveryone_five_incompatible (a b c d e : Person)
    (hnd : ([a, b, c, d, e].map (fun person => person.id)).Nodup)
    (hinc : ∀ x ∈ [a, b, c, d, e], ∀ y ∈ [a, b, c, d, e], x ≠ y → canBeMatched x y = false) :
    ∃ gs, matchEveryone [a, b, c, d, e] = Except.ok gs ∧
      gs = [[a.id, b.id], [c.id, d.id, e.id]] ∧
      gs.length = 2 ∧ gs.flatten.length = 5 := by
  obtain ⟨p, pre, post, hsplit, hfp, hcase⟩ := matchFirstPerson_split a b [c, d, e] hnd
  have hpre : pre = [] := by
    rcases hcase with ⟨hp, -⟩ | ⟨hpre, -⟩
    · have hmem : p ∈ b :: [c, d, e] := by rw [hsplit]; simp
      have hne : a ≠ p := by
        rintro rfl
        rw [List.map_cons, List.nodup_cons] at hnd
        exact hnd.1 (List.mem_map_of_mem _ hmem)
      have := hinc a (by simp) p (List.mem_cons_of_mem a hmem) hne
      rw [this] at hp
      exact absurd hp (by decide)
    · exact hpre
  subst hpre
  simp only [List.nil_append, List.cons.injEq] at hsplit hfp
  obtain ⟨rfl, rfl⟩ := hsplit
  refine ⟨_, ?_, rfl, rfl, rfl⟩
  rw [matchEveryone_step _ (by simp) _ _ hfp, matchEveryone_base _ (by simp) (by simp)]
  rfl

theorem matchEveryone_five_incompatible_witness :
    (rosterFive.map (fun person => person.id)).Nodup ∧
    (∀ x ∈ rosterFive, ∀ y ∈ rosterFive, x ≠ y → canBeMatched x y = false) ∧
    ∃ gs, matchEveryone rosterFive = Except.ok gs ∧
      gs = [[1, 2], [3, 4, 5]] ∧ gs.length = 2 ∧ gs.flatten.length = 5 :=
  ⟨by decide, by decide,
    matchEveryone_five_incompatible _ _ _ _ _ (by decide) (by decide)⟩

/-- Claim C7 as stated fails: `rosterFive` has five people with distinct ids,
no two of whom satisfy `canBeMatched`, and `matchEveryone` does not return
three groups on it (it returns the two groups `[1, 2]` and `[3, 4, 5]`). -/
theorem matchEveryone_five_not_three_groups :
    rosterFive.length = 5 ∧
    (rosterFive.map (fun person => person.id)).Nodup ∧
    (∀ x ∈ rosterFive, ∀ y ∈ rosterFive, x ≠ y → canBeMatched x y = false) ∧
    matchEveryone rosterFive = Except.ok [[1, 2], [3, 4, 5]] ∧
    ¬ ∃ gs, matchEveryone rosterFive = Except.ok gs ∧ gs.length = 3 ∧ gs.flatten.length = 5 := by
  refine ⟨by decide, by decide, by decide, by decide, ?_⟩
  rintro ⟨gs, hgs, hlen, -⟩
  have h : matchEveryone rosterFive = Except.ok [[1, 2], [3, 4, 5]] := by decide
  rw [h] at hgs
  injection hgs with hgs
  subst hgs
  exact absurd hlen (by decide)

/-- Claim C8: on a list of `n ≥ 2` participants with pairwise distinct ids, the
remainder returned by `matchFirstPerson` is the input list with exactly the
focal participant and the chosen partner removed: it has `n - 2` elements,
they are the full records of all the other participants, and they keep their
original relative order. -/
theorem matchFirstPerson_remainder (people : List Person) (h2 : 2 ≤ people.length)
    (hnd : (people.map (fun person => person.id)).Nodup) :
    ∃ p0 c pre post, people = p0 :: (pre ++ c :: post) ∧
      matchFirstPerson people = Except.ok ([p0.id, c.id], pre ++ post) ∧
      (pre ++ post).length = people.length - 2 ∧
      (pre ++ post).Sublist people ∧
      (∀ x ∈ people, x ≠ p0 → x ≠ c → x ∈ pre ++ post) ∧
      p0 ∉ pre ++ post ∧ c ∉ pre ++ post := by
  match people, h2, hnd with
  | p0 :: p1 :: rest, _, hnd =>
    obtain ⟨c, pre, post, hsplit, hfp, -⟩ := matchFirstPerson_split p0 p1 rest hnd
    have hnd' : (p0 :: (pre ++ c :: post)).Nodup := by
      rw [← hsplit]
      exact List.Nodup.of_map _ hnd
    refine ⟨p0, c, pre, post, by rw [hsplit], hfp, ?_, ?_, ?_, ?_, ?_⟩
    · rw [hsplit]
      simp only [List.length_cons, List.length_append]
      omega
    · rw [hsplit]
      exact ((List.Sublist.refl pre).append (List.sublist_cons_self c post)).trans
        (List.sublist_cons_self p0 _)
    · intro x hx h0 hc
      rw [hsplit] at hx
      simp only [List.mem_cons, List.mem_append] at hx ⊢
      tauto
    · simp only [List.nodup_cons, List.mem_append, List.mem_cons] at hnd'
      simp only [List.mem_append]
      tauto
    · simp only [List.nodup_cons, List.nodup_append, List.nodup_middle, List.mem_append] at hnd'
      simp only [List.mem_append]
      tauto

theorem matchFirstPerson_remainder_witness :
    2 ≤ rosterABCD.length ∧ (rosterABCD.map (fun person => person.id)).Nodup ∧
    matchFirstPerson rosterABCD =
      Except.ok ([1, 3], [⟨2, LocationPref.VIRTUAL, [], []⟩, ⟨4, LocationPref.VIRTUAL, [], []⟩]) ∧
    ∃ p0 c pre post, rosterABCD = p0 :: (pre ++ c :: post) ∧
      matchFirstPerson rosterABCD = Except.ok ([p0.id, c.id], pre ++ post) ∧
      (pre ++ post).length = rosterABCD.length - 2 ∧
      (pre ++ post).Sublist rosterABCD ∧
      (∀ x ∈ rosterABCD, x ≠ p0 → x ≠ c → x ∈ pre ++ post) ∧
      p0 ∉ pre ++ post ∧ c ∉ pre ++ post :=
  ⟨by decide, by decide, by decide,
    matchFirstPerson_remainder rosterABCD (by decide) (by decide)⟩

/-! ## The history update -/

/-- The other members of a group are its members other than `m`. -/
theorem mem_otherMembers (group : List UserId) (m x : UserId) :
    x ∈ otherMembers group m ↔ x ∈ group ∧ x ≠ m := by
  simp [otherMembers]

/-- In a group of distinct ids, only `m` itself passes the test `· == m`. -/
theorem filter_beq_of_nodup (group : List UserId) (m : UserId) (hnd : group.Nodup) :
    group.filter (fun id => id == m) = if m ∈ group then [m] else [] := by
  induction group with
  | nil => rfl
  | cons a t ih =>
    rw [List.nodup_cons] at hnd
    rw [List.filter_cons, ih hnd.2]
    by_cases ha : a = m
    · subst ha
      simp [hnd.1]
    · have hne : ¬ m = a := fun h => ha h.symm
      simp [ha, hne]

/-- The requests issued for `m` by the update loop over one group. -/
theorem groupUpdates_filter (group : List UserId) (m : UserId) (hnd : group.Nodup) :
    (groupUpdates group).filter (fun req => req.1 == m) =
      if m ∈ group then [(m, otherMembers group m)] else [] := by
  unfold groupUpdates
  rw [List.filter_map]
  have : ((fun req : UserId × List UserId => req.1 == m) ∘
      fun memberId => (memberId, otherMembers group memberId)) = fun id => id == m := rfl
  rw [this, filter_beq_of_nodup group m hnd]
  split <;> rfl

/-- The requests issued for `m` by the update loop over all the groups of a run. -/
theorem historyUpdates_filter (groups : List (List UserId)) (group : List UserId) (m : UserId)
    (hnd : groups.flatten.Nodup) (hg : group ∈ groups) (hm : m ∈ group) :
    (historyUpdates groups).filter (fun req => req.1 == m) = [(m, otherMembers group m)] := by
  induction groups with
  | nil => simp at hg
  | cons g gs ih =>
    rw [List.flatten_cons, List.nodup_append] at hnd
    obtain ⟨hg1, hg2, hdisj⟩ := hnd
    have hcons : historyUpdates (g :: gs) = groupUpdates g ++ historyUpdates gs := by
      simp [historyUpdates]
    rw [hcons, List.filter_append, groupUpdates_filter g m hg1]
    rcases List.mem_cons.mp hg with rfl | hg'
    · rw [if_pos hm]
      have hnot : ∀ req ∈ historyUpdates gs, ¬ (req.1 == m) = true := by
        intro req hreq
        simp only [historyUpdates, List.mem_flatMap, groupUpdates, List.mem_map] at hreq
        obtain ⟨g', hg', x, hx, rfl⟩ := hreq
        simp only [beq_iff_eq]
        rintro rfl
        exact hdisj hm (List.mem_flatten.mpr ⟨g', hg', hx⟩)
      rw [List.filter_eq_nil_iff.mpr hnot]
      rfl
    · have hmg : m ∉ g := fun h => hdisj h (List.mem_flatten.mpr ⟨group, hg', hm⟩)
      rw [if_neg hmg, List.nil_append, ih hg2 hg']

/-- Appending at most three ids leaves them at the end of the last-three window. -/
theorem suffix_readLastThreeMatched (stored : Option (List UserId)) (others : List UserId)
    (h : others.length ≤ 3) :
    others <:+ readLastThreeMatched (some (updateLastThreeMatched stored others)) := by
  unfold readLastThreeMatched sliceLast3 updateLastThreeMatched
  simp only [Option.getD_some, List.length_append]
  rw [List.drop_append_of_le_length (by omega)]
  exact List.suffix_append _ _

/-- Claim C5: for a group of a run (2 or 3 ids, no id occurring twice in the
run) and a member `m` of it, the update loop issues exactly one request for
`m`, whose ids are the group's other members in group order (`m` excluded);
after that append, the history read for the next run (the last 3 stored
entries) ends with those ids, so it contains every other member of the group. -/
theorem history_update (groups : List (List UserId)) (group : List UserId) (m : UserId)
    (stored : Option (List UserId)) (hnd : groups.flatten.Nodup) (hg : group ∈ groups)
    (hlen : group.length = 2 ∨ group.length = 3) (hm : m ∈ group) :
    ∃ others,
      (historyUpdates groups).filter (fun req => req.1 == m) = [(m, others)] ∧
      others.Sublist group ∧ (∀ x, x ∈ others ↔ x ∈ group ∧ x ≠ m) ∧
      others <:+ readLastThreeMatched (some (updateLastThreeMatched stored others)) ∧
      ∀ x ∈ group, x ≠ m →
        x ∈ readLastThreeMatched (some (updateLastThreeMatched stored others)) := by
  have hle : (otherMembers group m).length ≤ 3 := by
    have := List.length_filter_le (fun id => id != m) group
    unfold otherMembers
    omega
  have hsuf := suffix_readLastThreeMatched stored (otherMembers group m) hle
  refine ⟨otherMembers group m, historyUpdates_filter groups group m hnd hg hm,
    List.filter_sublist _, mem_otherMembers group m, hsuf, ?_⟩
  intro x hx hne
  exact hsuf.subset ((mem_otherMembers group m x).mpr ⟨hx, hne⟩)

theorem history_update_witness :
    ([[1, 3], [2, 4, 5]] : List (List UserId)).flatten.Nodup ∧
    [2, 4, 5] ∈ ([[1, 3], [2, 4, 5]] : List (List UserId)) ∧
    (([2, 4, 5] : List UserId).length = 2 ∨ ([2, 4, 5] : List UserId).length = 3) ∧
    4 ∈ ([2, 4, 5] : List UserId) ∧
    readLastThreeMatched (some (updateLastThreeMatched (some [7, 8, 9]) [2, 5])) = [9, 2, 5] ∧
    ∃ others,
      (historyUpdates [[1, 3], [2, 4, 5]]).filter (fun req => req.1 == 4) = [(4, others)] ∧
      others.Sublist [2, 4, 5] ∧ (∀ x, x ∈ others ↔ x ∈ ([2, 4, 5] : List UserId) ∧ x ≠ 4) ∧
      others <:+ readLastThreeMatched (some (updateLastThreeMatched (some [7, 8, 9]) others)) ∧
      ∀ x ∈ ([2, 4, 5] : List UserId), x ≠ 4 →
        x ∈ readLastThreeMatched (some (updateLastThreeMatched (some [7, 8, 9]) others)) :=
  ⟨by decide, by decide, by decide, by decide, by decide,
    history_update [[1, 3], [2, 4, 5]] [2, 4, 5] 4 (some [7, 8, 9])
      (by decide) (by decide) (by decide) (by decide)⟩

/-! ## The shuffle -/

/-- Inserting `x` at position `j` and putting the old entry in front is a permutation. -/
theorem cons_set_perm {α : Type} (t : List α) (j : Nat) (x y : α) (hj : t[j]? = some y) :
    (y :: t.set j x).Perm (x :: t) := by
  induction t generalizing j with
  | nil => simp at hj
  | cons a t ih =>
    cases j with
    | zero =>
      simp only [List.getElem?_cons_zero, Option.some.injEq] at hj
      subst hj
      exact List.Perm.swap _ _ _
    | succ j =>
      simp only [List.getElem?_cons_succ] at hj
      simp only [List.set_cons_succ]
      exact (List.Perm.swap _ _ _).trans (((ih j hj).cons a).trans (List.Perm.swap _ _ _))

/-- Exchanging two entries of a list is a permutation (first index below the second). -/
theorem set_set_perm_lt {α : Type} (l : List α) (i j : Nat) (x y : α) (hij : i < j)
    (hi : l[i]? = some x) (hj : l[j]? = some y) :
    ((l.set i y).set j x).Perm l := by
  induction l generalizing i j with
  | nil => simp at hi
  | cons a t ih =>
    cases j with
    | zero => omega
    | succ j =>
      simp only [List.getElem?_cons_succ] at hj
      cases i with
      | zero =>
        simp only [List.getElem?_cons_zero, Option.some.injEq] at hi
        subst hi
        simp only [List.set_cons_zero, List.set_cons_succ]
        exact cons_set_perm t j a y hj
      | succ i =>
        simp only [List.getElem?_cons_succ] at hi
        simp only [List.set_cons_succ]
        exact (ih i j (by omega) hi hj).cons a

/-- Exchanging two entries of an array permutes it. -/
theorem swap_perm {α : Type} (a : List α) (i j : Nat) : (swap a i j).Perm a := by
  unfold swap
  cases hi : a[i]? with
  | none => exact List.Perm.refl _
  | some x =>
    cases hj : a[j]? with
    | none => exact List.Perm.refl _
    | some y =>
      simp only
      rcases Nat.lt_trichotomy i j with h | h | h
      · exact set_set_perm_lt a i j x y h hi hj
      · subst h
        rw [hi] at hj
        injection hj with hj
        subst hj
        rw [List.set_set]
        have : a.set i x = a := by
          apply List.ext_getElem?
          intro k
          rw [List.getElem?_set]
          split
          · rename_i h; subst h
            have hlt : i < a.length := by
              by_contra hge
              rw [List.getElem?_eq_none (by omega)] at hi
              cases hi
            simp [hlt, hi]
          · rfl
        rw [this]
      · rw [List.set_comm _ _ _ (by omega)]
        exact set_set_perm_lt a j i y x h hj hi

/-- Exchanging two entries of an array keeps its length. -/
theorem swap_length {α : Type} (a : List α) (i j : Nat) : (swap a i j).length = a.length :=
  (swap_perm a i j).length_eq

/-- The entries of a swapped array, for indices in range. -/
theorem swap_getElem? {α : Type} (a : List α) (i j k : Nat) (hi : i < a.length) (hj : j < a.length) :
    (swap a i j)[k]? = if k = j then a[i]? else if k = i then a[j]? else a[k]? := by
  unfold swap
  rw [List.getElem?_eq_getElem hi, List.getElem?_eq_getElem hj]
  simp only
  rw [List.getElem?_set, List.getElem?_set]
  by_cases hkj : k = j
  · subst hkj
    simp [hj, List.length_set]
  · have hjk : ¬ j = k := fun h => hkj h.symm
    simp only [hjk, hkj, if_false]
    by_cases hki : k = i
    · subst hki
      simp [hi]
    · have hik : ¬ i = k := fun h => hki h.symm
      simp [hik, hki]

/-- A swap of two positions at most `i` leaves every later position alone. -/
theorem swap_getElem?_gt {α : Type} (a : List α) (i j k : Nat) (hj : j ≤ i) (hk : i < k) :
    (swap a i j)[k]? = a[k]? := by
  by_cases hi : i < a.length
  · rw [swap_getElem? a i j k hi (by omega), if_neg (by omega), if_neg (by omega)]
  · have hnone : a[i]? = none := List.getElem?_eq_none (by omega)
    unfold swap
    rw [hnone]

/-- Whatever is drawn, the loop permutes the array. -/
theorem shuffleLoop_perm {α : Type} (draw : Nat → Nat) (i : Nat) (a : List α) :
    (shuffleLoop draw i a).Perm a := by
  induction i generalizing a with
  | zero => exact List.Perm.refl _
  | succ i ih => exact (ih _).trans (swap_perm a _ _)

/-- The loop entered at `i` never touches a position after `i`. -/
theorem shuffleLoop_getElem?_gt {α : Type} (draw : Nat → Nat) (i : Nat) (a : List α) (k : Nat)
    (hd : ∀ m, 1 ≤ m → m ≤ i → draw m ≤ m) (hk : i < k) :
    (shuffleLoop draw i a)[k]? = a[k]? := by
  induction i generalizing a with
  | zero => rfl
  | succ i ih =>
    rw [shuffleLoop, ih _ (fun m h1 h2 => hd m h1 (by omega)) (by omega),
      swap_getElem?_gt a (i + 1) _ k (hd (i + 1) (by omega) (le_refl _)) hk]

/-- The loop entered at `i` only reads the draws for `1, ..., i`. -/
theorem shuffleLoop_congr {α : Type} (draw draw' : Nat → Nat) (i : Nat) (a : List α)
    (h : ∀ m, 1 ≤ m → m ≤ i → draw m = draw' m) :
    shuffleLoop draw i a = shuffleLoop draw' i a := by
  induction i generalizing a with
  | zero => rfl
  | succ i ih =>
    rw [shuffleLoop, shuffleLoop, h (i + 1) (by omega) (le_refl _),
      ih _ (fun m h1 h2 => h m h1 (by omega))]

/-- The iteration with loop variable `i + 1` decides the final entry at `i + 1`. -/
theorem shuffleLoop_getElem?_top {α : Type} (draw : Nat → Nat) (i : Nat) (a : List α)
    (hd : ∀ m, 1 ≤ m → m ≤ i + 1 → draw m ≤ m) (hi : i + 1 < a.length) :
    (shuffleLoop draw (i + 1) a)[i + 1]? = a[draw (i + 1)]? := by
  have hj := hd (i + 1) (by omega) (le_refl _)
  rw [shuffleLoop, shuffleLoop_getElem?_gt draw i _ (i + 1)
    (fun m h1 h2 => hd m h1 (by omega)) (by omega),
    swap_getElem? a (i + 1) _ (i + 1) hi (by omega)]
  split
  · rename_i h; rw [← h]
  · rw [if_pos rfl]

/-- Two entries of a list without duplicates are equal only at equal indices. -/
theorem index_eq_of_getElem?_eq {α : Type} (a : List α) (hnd : a.Nodup) (i j : Nat) (hi : i < a.length)
    (h : a[i]? = a[j]?) : i = j := by
  have hj : j < a.length := by
    by_contra hge
    rw [List.getElem?_eq_getElem hi, List.getElem?_eq_none (by omega)] at h
    cases h
  rw [List.getElem?_eq_getElem hi, List.getElem?_eq_getElem hj] at h
  injection h with h
  exact (hnd.getElem_inj_iff).mp h

/-- Different draws give different orders. -/
theorem shuffleLoop_injective {α : Type} (draw draw' : Nat → Nat) (i : Nat) (a : List α)
    (hnd : a.Nodup) (hi : i ≤ a.length - 1)
    (hd : ∀ m, 1 ≤ m → m ≤ i → draw m ≤ m) (hd' : ∀ m, 1 ≤ m → m ≤ i → draw' m ≤ m)
    (h : shuffleLoop draw i a = shuffleLoop draw' i a) :
    ∀ m, 1 ≤ m → m ≤ i → draw m = draw' m := by
  induction i generalizing a with
  | zero => intro m h1 h2; omega
  | succ i ih =>
    have hlt : i + 1 < a.length := by omega
    have htop : a[draw (i + 1)]? = a[draw' (i + 1)]? := by
      rw [← shuffleLoop_getElem?_top draw i a hd hlt, ← shuffleLoop_getElem?_top draw' i a hd' hlt, h]
    have hj := hd (i + 1) (by omega) (le_refl _)
    have heq : draw (i + 1) = draw' (i + 1) :=
      index_eq_of_getElem?_eq a hnd _ _ (by omega) htop
    rw [shuffleLoop, shuffleLoop, ← heq] at h
    have hrec := ih (swap a (i + 1) (draw (i + 1))) ((swap_perm a _ _).nodup_iff.mpr hnd)
      (by rw [swap_length]; omega) (fun m h1 h2 => hd m h1 (by omega))
      (fun m h1 h2 => hd' m h1 (by omega)) h
    intro m h1 h2
    by_cases hm : m = i + 1
    · rw [hm]; exact heq
    · exact hrec m h1 (by omega)

/-- A permutation of a duplicate-free list that agrees with it after position 0 is the list. -/
theorem eq_of_perm_of_tail_eq {α : Type} (p a : List α) (hnd : p.Nodup) (hp : p.Perm a)
    (h : ∀ k, 0 < k → p[k]? = a[k]?) : p = a := by
  match p, a, hp with
  | [], [], _ => rfl
  | [], _ :: _, hp => exact absurd hp.length_eq (by simp)
  | _ :: _, [], hp => exact absurd hp.length_eq (by simp)
  | x :: ps, y :: as, hp =>
    have htail : ps = as := by
      apply List.ext_getElem?
      intro k
      have := h (k + 1) (by omega)
      simpa using this
    subst htail
    have hx : x ∈ y :: ps := hp.subset (List.mem_cons_self x ps)
    rw [List.nodup_cons] at hnd
    rcases List.mem_cons.mp hx with rfl | hx'
    · rfl
    · exact absurd hx' hnd.1

/-- Every order that agrees with the array after position `i` is reached by some draws. -/
theorem shuffleLoop_surjective {α : Type} (i : Nat) (a p : List α) (hnd : a.Nodup) (hp : p.Perm a)
    (hi : i ≤ a.length - 1) (h : ∀ k, i < k → p[k]? = a[k]?) :
    ∃ draw : Nat → Nat, (∀ m, 1 ≤ m → m ≤ i → draw m ≤ m) ∧ shuffleLoop draw i a = p := by
  induction i generalizing a with
  | zero =>
    exact ⟨fun _ => 0, fun m h1 h2 => by omega,
      (eq_of_perm_of_tail_eq p a (hp.nodup_iff.mpr hnd) hp h).symm⟩
  | succ i ih =>
    have hlt : i + 1 < a.length := by omega
    have hltp : i + 1 < p.length := by rw [hp.length_eq]; exact hlt
    have hpnd : p.Nodup := hp.nodup_iff.mpr hnd
    obtain ⟨j, hj, hjx⟩ := List.getElem_of_mem (hp.subset (List.getElem_mem hltp))
    have hjx' : a[j]? = p[i + 1]? := by
      rw [List.getElem?_eq_getElem hj, List.getElem?_eq_getElem hltp, hjx]
    have hjle : j ≤ i + 1 := by
      by_contra hgt
      have h1 : p[j]? = p[i + 1]? := by rw [h j (by omega), hjx']
      have := index_eq_of_getElem?_eq p hpnd j (i + 1) (by rw [hp.length_eq]; exact hj) h1
      omega
    have hagree : ∀ k, i < k → p[k]? = (swap a (i + 1) j)[k]? := by
      intro k hk
      rw [swap_getElem? a (i + 1) j k hlt hj]
      by_cases hk1 : k = i + 1
      · subst hk1
        split
        · rename_i hkj; rw [← hjx', ← hkj]
        · rw [if_pos rfl, hjx']
      · rw [if_neg (by omega), if_neg hk1]
        exact h k (by omega)
    obtain ⟨draw, hd, hdraw⟩ := ih (swap a (i + 1) j) ((swap_perm a _ _).nodup_iff.mpr hnd)
      (hp.trans (swap_perm a _ _).symm) (by rw [swap_length]; omega) hagree
    refine ⟨fun m => if m = i + 1 then j else draw m, ?_, ?_⟩
    · intro m h1 h2
      by_cases hm : m = i + 1
      · simp only [hm, if_true]; exact hjle
      · simp only [hm, if_false]; exact hd m h1 (by omega)
    · rw [shuffleLoop]
      simp only [if_true]
      rw [← hdraw]
      apply shuffleLoop_congr
      intro m h1 h2
      rw [if_neg (by omega)]

/-- Claim C10: on an array of `n` pairwise distinct elements, `shuffleArray`
returns a permutation of its input whatever indices are drawn, and the map
from the drawn index sequences (one `j` in `0..i` for each `i` from `n - 1`
down to 1) to the resulting order is a bijection onto the `n!` permutations of
the input: different sequences give different orders, and every permutation is
the order given by some sequence. -/
theorem shuffleArray_bijection {α : Type} (array : List α) (hnd : array.Nodup) :
    (∀ draw, ValidDraws array.length draw → (shuffleArray draw array).Perm array) ∧
    (∀ draw draw', ValidDraws array.length draw → ValidDraws array.length draw' →
      shuffleArray draw array = shuffleArray draw' array →
      ∀ i, 1 ≤ i → i < array.length → draw i = draw' i) ∧
    (∀ p, p.Perm array →
      ∃ draw, ValidDraws array.length draw ∧ shuffleArray draw array = p) ∧
    array.permutations.Nodup ∧ array.permutations.length = array.length.factorial ∧
    (∀ p, p ∈ array.permutations ↔
      ∃ draw, ValidDraws array.length draw ∧ shuffleArray draw array = p) := by
  have hsurj : ∀ p, p.Perm array →
      ∃ draw, ValidDraws array.length draw ∧ shuffleArray draw array = p := by
    intro p hp
    obtain ⟨draw, hd, hdraw⟩ := shuffleLoop_surjective (array.length - 1) array p hnd hp
      (le_refl _) (fun k hk => by
        rw [List.getElem?_eq_none (by rw [hp.length_eq]; omega),
          List.getElem?_eq_none (by omega)])
    exact ⟨draw, fun i h1 h2 => hd i h1 (by omega), hdraw⟩
  refine ⟨fun draw _ => shuffleLoop_perm draw _ array, ?_, hsurj,
    List.nodup_permutations array hnd, List.length_permutations array, ?_⟩
  · intro draw draw' hd hd' h i h1 h2
    exact shuffleLoop_injective draw draw' (array.length - 1) array hnd (le_refl _)
      (fun m h1 h2 => hd m h1 (by omega)) (fun m h1 h2 => hd' m h1 (by omega)) h i h1 (by omega)
  · intro p
    rw [List.mem_permutations]
    constructor
    · exact hsurj p
    · rintro ⟨draw, -, rfl⟩
      exact shuffleLoop_perm draw _ array

theorem shuffleArray_bijection_witness :
    ([10, 20, 30] : List Nat).Nodup ∧
    ((List.range 3).flatMap fun a => (List.range 2).map fun b =>
        shuffleArray (fun i => if i = 2 then a else b) [10, 20, 30]) =
      [[20, 30, 10], [30, 20, 10], [30, 10, 20], [10, 30, 20], [20, 10, 30], [10, 20, 30]] ∧
    (∀ draw, ValidDraws 3 draw → (shuffleArray draw [10, 20, 30]).Perm [10, 20, 30]) ∧
    (∀ draw draw', ValidDraws 3 draw → ValidDraws 3 draw' →
      shuffleArray draw [10, 20, 30] = shuffleArray draw' [10, 20, 30] →
      ∀ i, 1 ≤ i → i < 3 → draw i = draw' i) ∧
    (∀ p, p.Perm [10, 20, 30] →
      ∃ draw, ValidDraws 3 draw ∧ shuffleArray draw [10, 20, 30] = p) ∧
    ([10, 20, 30] : List Nat).permutations.Nodup ∧
    ([10, 20, 30] : List Nat).permutations.length = Nat.factorial 3 ∧
    (∀ p, p ∈ ([10, 20, 30] : List Nat).permutations ↔
      ∃ draw, ValidDraws 3 draw ∧ shuffleArray draw [10, 20, 30] = p) :=
  ⟨by decide, by decide, shuffleArray_bijection [10, 20, 30] (by decide)⟩

/-! ## Compatibility of the pairs -/

/-- Every group but the last is a pair whose second member is compatible with the
first, unless nobody still unplaced was. -/
theorem matchEveryone_pairs (people : List Person) (h2 : 2 ≤ people.length)
    (hnd : (people.map (fun person => person.id)).Nodup) :
    ∃ gs, matchEveryone people = Except.ok gs ∧
      ∀ k, k + 1 < gs.length →
        ∃ f c, f ∈ people ∧ c ∈ people ∧ gs[k]? = some [f.id, c.id] ∧
          (canBeMatched f c = true ∨
            ∀ x ∈ people, x.id ≠ f.id → x.id ∉ (gs.take k).flatten →
              canBeMatched f x = false) := by
  generalize h : people.length = n
  induction n using Nat.strong_induction_on generalizing people with
  | _ n ih =>
    by_cases h3 : people.length ≤ 3
    · refine ⟨_, matchEveryone_base people h2 h3, ?_⟩
      intro k hk
      simp only [List.length_singleton] at hk
      omega
    · match people, h2, h3, hnd, h with
      | p0 :: p1 :: rest, _, h3, hnd, h =>
        obtain ⟨c, pre, post, hsplit, hfp, hcase⟩ := matchFirstPerson_split p0 p1 rest hnd
        have hlen : (pre ++ post).length + 2 = n := by
          have := congrArg List.length hsplit
          simp only [List.length_cons, List.length_append] at this h ⊢
          omega
        have hsub : (pre ++ post).Sublist (p0 :: p1 :: rest) := by
          rw [hsplit]
          exact ((List.Sublist.refl pre).append (List.sublist_cons_self c post)).trans
            (List.sublist_cons_self p0 _)
        have hnd' : ((pre ++ post).map (fun person => person.id)).Nodup :=
          List.Nodup.sublist (hsub.map _) hnd
        simp only [List.length_cons] at h3
        obtain ⟨gs, hgs, hpairs⟩ :=
          ih (pre ++ post).length (by omega) (pre ++ post) (by omega) hnd' rfl
        refine ⟨[p0.id, c.id] :: gs, ?_, ?_⟩
        · rw [matchEveryone_step _ (by simp only [List.length_cons]; omega) _ _ hfp, hgs]
        · intro k hk
          cases k with
          | zero =>
            refine ⟨p0, c, List.mem_cons_self _ _, ?_, List.getElem?_cons_zero, ?_⟩
            · rw [hsplit]; simp
            · rcases hcase with ⟨hc, -⟩ | ⟨-, hall⟩
              · exact Or.inl hc
              · right
                intro x hx hne _
                rcases List.mem_cons.mp hx with rfl | hx'
                · exact absurd rfl hne
                · exact hall x hx'
          | succ k =>
            simp only [List.length_cons] at hk
            obtain ⟨f, c', hf, hc', hget, hor⟩ := hpairs k (by omega)
            refine ⟨f, c', hsub.subset hf, hsub.subset hc', by simpa using hget, ?_⟩
            rcases hor with hc | hall
            · exact Or.inl hc
            · right
              intro x hx hne hnot
              simp only [List.take_succ_cons, List.flatten_cons, List.mem_append, List.mem_cons,
                List.mem_singleton, List.not_mem_nil, or_false, not_or] at hnot
              obtain ⟨⟨hx0, hxc⟩, hxgs⟩ := hnot
              have hxrem : x ∈ pre ++ post := by
                rw [hsplit] at hx
                simp only [List.mem_cons, List.mem_append] at hx ⊢
                rcases hx with rfl | hx | rfl | hx
                · exact absurd rfl hx0
                · exact Or.inl hx
                · exact absurd rfl hxc
                · exact Or.inr hx
              exact hall x hxrem hne hxgs

/-- Claim C12: on a roster of `n ≥ 4` participants with pairwise distinct ids,
every group returned by `matchEveryone` other than the last is a pair
`[f.id, c.id]` such that either `canBeMatched f c` holds, or `canBeMatched f x`
is false for every other participant `x` not placed in an earlier group: a
pair that violates the constraints is produced only when its first member had
no compatible candidate left. -/
theorem matchEveryone_pair_compatible (people : List Person) (h4 : 4 ≤ people.length)
    (hnd : (people.map (fun person => person.id)).Nodup) :
    ∃ gs, matchEveryone people = Except.ok gs ∧ 2 ≤ gs.length ∧
      ∀ k, k + 1 < gs.length →
        ∃ f c, f ∈ people ∧ c ∈ people ∧ gs[k]? = some [f.id, c.id] ∧
          (canBeMatched f c = true ∨
            ∀ x ∈ people, x.id ≠ f.id → x.id ∉ (gs.take k).flatten →
              canBeMatched f x = false) := by
  obtain ⟨gs, hgs, hpairs⟩ := matchEveryone_pairs people (by omega) hnd
  obtain ⟨gs', hgs', -, -, hlen, -⟩ := matchEveryone_groups people (by omega) hnd
  rw [hgs] at hgs'
  injection hgs' with hgs'
  subst hgs'
  exact ⟨gs, hgs, by rw [hlen]; omega, hpairs⟩

theorem matchEveryone_pair_compatible_witness :
    4 ≤ rosterFive.length ∧ (rosterFive.map (fun person => person.id)).Nodup ∧
    matchEveryone rosterFive = Except.ok [[1, 2], [3, 4, 5]] ∧
    ∃ gs, matchEveryone rosterFive = Except.ok gs ∧ 2 ≤ gs.length ∧
      ∀ k, k + 1 < gs.length →
        ∃ f c, f ∈ rosterFive ∧ c ∈ rosterFive ∧ gs[k]? = some [f.id, c.id] ∧
          (canBeMatched f c = true ∨
            ∀ x ∈ rosterFive, x.id ≠ f.id → x.id ∉ (gs.take k).flatten →
              canBeMatched f x = false) :=
  ⟨by decide, by decide, by decide,
    matchEveryone_pair_compatible rosterFive (by decide) (by decide)⟩

/-! ## Command parsing -/

/-- The greedy run followed by a quote is accepted at its full length. -/
theorem matchQuotedBody_run (quote : Char → Bool) (body rest : List Char) (q2 : Char)
    (hbody : body ≠ []) (hq2 : quote q2 = true) :
    matchQuotedBody quote (body ++ q2 :: rest) body.length = some (body, q2, rest) := by
  obtain ⟨k, hk⟩ : ∃ k, body.length = k + 1 :=
    ⟨body.length - 1, by have := List.length_pos.mpr hbody; omega⟩
  rw [hk, matchQuotedBody, List.drop_left' hk]
  simp only [hq2, if_true]
  rw [List.take_left' hk]

/-- The first alternative on a quoted argument: the capture is the text between the quotes. -/
theorem matchQuoted_quoted (quote : Char → Bool) (q1 q2 : Char) (body rest : List Char)
    (hq1 : quote q1 = true) (hq2 : quote q2 = true) (hbody : body ≠ [])
    (hno : ∀ c ∈ body, quote c = false) :
    matchQuoted quote (q1 :: (body ++ q2 :: rest)) =
      some (⟨q1 :: (body ++ [q2]), some body⟩, rest) := by
  have hrun : (body ++ q2 :: rest).takeWhile (fun c => !quote c) = body := by
    rw [List.takeWhile_append_of_pos (by intro c hc; simp [hno c hc]),
      List.takeWhile_cons_of_neg (by simp [hq2]), List.append_nil]
  simp only [matchQuoted, hq1, if_true, hrun, matchQuotedBody_run quote body rest q2 hbody hq2]

/-- The first alternative fails where the text does not start with a quote. -/
theorem matchQuoted_not_quote (quote : Char → Bool) (c : Char) (t : List Char)
    (hc : quote c = false) : matchQuoted quote (c :: t) = none := by
  simp [matchQuoted, hc]

/-- The second alternative on a bare word, up to the end of the text or to a whitespace. -/
theorem matchBare_word (word rest : List Char) (hword : word ≠ [])
    (hno : ∀ c ∈ word, isJsWhitespace c = false)
    (hrest : rest = [] ∨ ∃ w r, rest = w :: r ∧ isJsWhitespace w = true) :
    matchBare (word ++ rest) = some (⟨word, none⟩, rest) := by
  have hall : ∀ c ∈ word, (fun c => !isJsWhitespace c) c = true := by
    intro c hc; simp [hno c hc]
  have htake : (word ++ rest).takeWhile (fun c => !isJsWhitespace c) = word := by
    rw [List.takeWhile_append_of_pos hall]
    rcases hrest with rfl | ⟨w, r, rfl, hw⟩
    · simp
    · rw [List.takeWhile_cons_of_neg (by simp [hw]), List.append_nil]
  have hdrop : (word ++ rest).dropWhile (fun c => !isJsWhitespace c) = rest := by
    rw [List.dropWhile_append_of_pos hall]
    rcases hrest with rfl | ⟨w, r, rfl, hw⟩
    · simp
    · rw [List.dropWhile_cons_of_neg (by simp [hw])]
  unfold matchBare
  rw [htake, hdrop]
  cases word with
  | nil => exact absurd rfl hword
  | cons a w => rfl

/-- The second alternative fails at a whitespace. -/
theorem matchBare_whitespace (w : Char) (t : List Char) (hw : isJsWhitespace w = true) :
    matchBare (w :: t) = none := by
  unfold matchBare
  rw [List.takeWhile_cons_of_neg (by simp [hw])]
  rfl

/-- What follows a match of the quoted body is shorter than the text it was tried at. -/
theorem matchQuotedBody_length (quote : Char → Bool) (t : List Char) (k : Nat)
    (body rest : List Char) (q : Char)
    (h : matchQuotedBody quote t k = some (body, q, rest)) : rest.length < t.length := by
  induction k with
  | zero => simp [matchQuotedBody] at h
  | succ k ih =>
    rw [matchQuotedBody] at h
    cases hd : t.drop (k + 1) with
    | nil => rw [hd] at h; exact ih h
    | cons q' rest' =>
      rw [hd] at h
      simp only at h
      split at h
      · injection h with h
        injection h with _ h
        injection h with _ h
        subst h
        have := congrArg List.length hd
        simp only [List.length_drop, List.length_cons] at this
        omega
      · exact ih h

/-- What follows a match of the regex is shorter than the text it was tried at. -/
theorem matchAt_length (quote : Char → Bool) (s rest : List Char) (m : RegexMatch)
    (h : matchAt quote s = some (m, rest)) : rest.length < s.length := by
  unfold matchAt at h
  cases hq : matchQuoted quote s with
  | some r =>
    rw [hq] at h
    simp only at h
    injection h with h
    subst h
    cases s with
    | nil => simp [matchQuoted] at hq
    | cons q t =>
      simp only [matchQuoted] at hq
      split at hq
      · cases hb : matchQuotedBody quote t (t.takeWhile (fun c => !quote c)).length with
        | none => rw [hb] at hq; simp at hq
        | some r =>
          obtain ⟨body, q2, rest'⟩ := r
          rw [hb] at hq
          simp only [Option.some.injEq, Prod.mk.injEq] at hq
          have := matchQuotedBody_length quote t _ body rest' q2 hb
          rw [← hq.2]
          simp only [List.length_cons]
          omega
      · simp at hq
  | none =>
    rw [hq] at h
    simp only [matchBare] at h
    split at h
    · simp at h
    · rename_i hne
      injection h with h
      injection h with _ h
      subst h
      have hsum := congrArg List.length (List.takeWhile_append_dropWhile (fun c => !isJsWhitespace c) s)
      rw [List.length_append] at hsum
      have hpos : 0 < (s.takeWhile (fun c => !isJsWhitespace c)).length := by
        apply List.length_pos.mpr
        intro h0
        rw [h0] at hne
        exact hne rfl
      omega

/-- Any budget above the length of the text gives the same matches. -/
theorem matchAllAux_fuel (quote : Char → Bool) (n m : Nat) (s : List Char)
    (hn : s.length < n) (hm : s.length < m) :
    matchAllAux quote n s = matchAllAux quote m s := by
  induction n generalizing m s with
  | zero => omega
  | succ n ih =>
    cases m with
    | zero => omega
    | succ m =>
      cases s with
      | nil => rfl
      | cons c t =>
        simp only [matchAllAux]
        cases hat : matchAt quote (c :: t) with
        | none =>
          simp only [List.length_cons] at hn hm
          exact ih m t (by omega) (by omega)
        | some r =>
          obtain ⟨mt, rest⟩ := r
          have hlt := matchAt_length quote _ rest mt hat
          simp only [List.length_cons] at hn hm hlt
          simp only
          rw [ih m rest (by omega) (by omega)]

/-- The budget chosen by `matchAll` is as good as any larger one. -/
theorem matchAll_eq_aux (quote : Char → Bool) (n : Nat) (s : List Char) (hn : s.length < n) :
    matchAllAux quote n s = matchAll quote s :=
  matchAllAux_fuel quote n (s.length + 1) s hn (Nat.lt_succ_self _)

/-- After a match, `matchAll` resumes at its end. -/
theorem matchAll_match (quote : Char → Bool) (s rest : List Char) (m : RegexMatch)
    (h : matchAt quote s = some (m, rest)) :
    matchAll quote s = m :: matchAll quote rest := by
  have hlt := matchAt_length quote s rest m h
  cases s with
  | nil => simp at hlt
  | cons c t =>
    rw [matchAll, matchAllAux, h]
    simp only
    rw [matchAll_eq_aux quote _ rest hlt]

/-- Where the regex does not match, `matchAll` moves on by one character. -/
theorem matchAll_skip (quote : Char → Bool) (c : Char) (t : List Char)
    (h : matchAt quote (c :: t) = none) :
    matchAll quote (c :: t) = matchAll quote t := by
  rw [matchAll, matchAllAux, h]
  rfl

/-- A written argument, followed by the end of the text or by a space, is read back. -/
theorem matchAll_writeArg (quote : Char → Bool) (hq : quote dquote = true)
    (arg rest : List Char) (harg : arg ≠ []) (hno : ∀ c ∈ arg, quote c = false)
    (hrest : rest = [] ∨ ∃ w r, rest = w :: r ∧ isJsWhitespace w = true) :
    (matchAll quote (writeArg arg ++ rest)).map argOfMatch =
      arg :: (matchAll quote rest).map argOfMatch := by
  unfold writeArg
  by_cases hws : arg.any isJsWhitespace = true
  · rw [if_pos hws]
    have hm : matchAt quote (dquote :: (arg ++ [dquote]) ++ rest) =
        some (⟨dquote :: (arg ++ [dquote]), some arg⟩, rest) := by
      have : dquote :: (arg ++ [dquote]) ++ rest = dquote :: (arg ++ dquote :: rest) := by simp
      rw [this, matchAt, matchQuoted_quoted quote dquote dquote arg rest hq hq harg hno]
    rw [matchAll_match quote _ rest _ hm, List.map_cons]
    congr 1
    cases arg with
    | nil => exact absurd rfl harg
    | cons a w => rfl
  · rw [if_neg hws]
    have hnows : ∀ c ∈ arg, isJsWhitespace c = false := by
      intro c hc
      by_contra hcw
      exact hws (List.any_eq_true.mpr ⟨c, hc, by simpa using hcw⟩)
    cases arg with
    | nil => exact absurd rfl harg
    | cons a w =>
      have hm : matchAt quote ((a :: w) ++ rest) = some (⟨a :: w, none⟩, rest) := by
        rw [matchAt]
        have : (a :: w) ++ rest = a :: (w ++ rest) := rfl
        rw [this, matchQuoted_not_quote quote a _ (hno a (List.mem_cons_self a w)), ← this]
        exact matchBare_word (a :: w) rest harg hnows hrest
      rw [matchAll_match quote _ rest _ hm, List.map_cons]
      rfl

/-- A space between two arguments is skipped. -/
theorem matchAll_space (quote : Char → Bool) (hsp : quote ' ' = false) (t : List Char) :
    matchAll quote (' ' :: t) = matchAll quote t := by
  apply matchAll_skip
  rw [matchAt, matchQuoted_not_quote quote ' ' t hsp]
  exact matchBare_whitespace ' ' t (by decide)

/-- The command text of a list of arguments, one argument at a time. -/
theorem writeCommandText_cons (arg : List Char) (args : List (List Char)) :
    writeCommandText (arg :: args) =
      writeArg arg ++ (if args = [] then [] else ' ' :: writeCommandText args) := by
  cases args with
  | nil => simp [writeCommandText, List.intercalate]
  | cons b bs => simp [writeCommandText, List.intercalate, List.intersperse]

/-- Reading back the command text of arguments without quotes, for either regex. -/
theorem matchAll_writeCommandText (quote : Char → Bool) (hq : quote dquote = true)
    (hsp : quote ' ' = false) (args : List (List Char))
    (h : ∀ a ∈ args, a ≠ [] ∧ ∀ c ∈ a, quote c = false) :
    (matchAll quote (writeCommandText args)).map argOfMatch = args := by
  induction args with
  | nil => rfl
  | cons a as ih =>
    have ha := h a (List.mem_cons_self a as)
    have ih' := ih (fun b hb => h b (List.mem_cons_of_mem a hb))
    rw [writeCommandText_cons]
    by_cases has : as = []
    · subst has
      rw [if_pos rfl, matchAll_writeArg quote hq a [] ha.1 ha.2 (Or.inl rfl)]
      rfl
    · rw [if_neg has, matchAll_writeArg quote hq a _ ha.1 ha.2
        (Or.inr ⟨' ', _, rfl, by decide⟩), matchAll_space quote hsp, ih']

/-- Claim C11: `parseCommandArgs` undoes the documented command syntax. For
arguments that are non-empty and contain no double quote (straight or curly),
writing each argument that contains whitespace between double quotes and every
other argument bare, and joining them with single spaces, gives a text that
`parseCommandArgs` (of `index.js` and of `app.js`) parses back into the
original list, quotes stripped. -/
theorem parseCommandArgs_writeCommandText (args : List (List Char))
    (h : ∀ a ∈ args, a ≠ [] ∧ ∀ c ∈ a, isQuote c = false) :
    parseCommandArgs (writeCommandText args) = args ∧
    parseCommandArgsApp (writeCommandText args) = args := by
  constructor
  · exact matchAll_writeCommandText isQuote (by decide) (by decide) args h
  · refine matchAll_writeCommandText isStraightQuote (by decide) (by decide) args ?_
    intro a ha
    refine ⟨(h a ha).1, ?_⟩
    intro c hc
    have := (h a ha).2 c hc
    simp only [isQuote, Bool.or_eq_false_iff] at this
    exact this.1.1

theorem parseCommandArgs_writeCommandText_witness :
    (∀ a ∈ ["arg one".toList, "arg2".toList, "arg3".toList, "arg 4".toList],
      a ≠ [] ∧ ∀ c ∈ a, isQuote c = false) ∧
    writeCommandText ["arg one".toList, "arg2".toList, "arg3".toList, "arg 4".toList] =
      dquote :: ("arg one".toList ++ dquote :: (" arg2 arg3 ".toList ++
        dquote :: ("arg 4".toList ++ [dquote]))) ∧
    parseCommandArgs
        (writeCommandText ["arg one".toList, "arg2".toList, "arg3".toList, "arg 4".toList]) =
      ["arg one".toList, "arg2".toList, "arg3".toList, "arg 4".toList] ∧
    parseCommandArgsApp
        (writeCommandText ["arg one".toList, "arg2".toList, "arg3".toList, "arg 4".toList]) =
      ["arg one".toList, "arg2".toList, "arg3".toList, "arg 4".toList] :=
  ⟨by decide, by decide,
    parseCommandArgs_writeCommandText
      ["arg one".toList, "arg2".toList, "arg3".toList, "arg 4".toList] (by decide)⟩

/-! ## The `/bio` command -/

/-- No number is strictly equal to `NaN`, and `NaN` is not either. -/
theorem jsStrictEquals_nan (x : Option Int) : jsStrictEquals x none = false := by
  cases x <;> rfl

/-- The answer `needIndex` is never given: its guard compares with `=== NaN`. -/
theorem bioCommand_never_needIndex (text : List Char) (userId : UserId)
    (removeReply showReply : Option (List (List Char))) :
    BioEffect.respond BioMessage.needIndex ∉ bioCommand text userId removeReply showReply := by
  unfold bioCommand
  simp only [jsStrictEquals_nan]
  intro hmem
  split at hmem
  · split at hmem <;> simp at hmem
  · split at hmem
    · simp only [Bool.false_eq_true, if_false] at hmem
      split at hmem
      · simp at hmem
      · split at hmem <;> simp at hmem
    · split at hmem
      · split at hmem
        · simp at hmem
        · split at hmem <;> simp at hmem
      · simp at hmem

/-- Claim C13 fails on the code: for the command texts `remove` (no index) and
`remove abc` (an index that is not a number), `parseInt` gives `NaN`, and
whatever DynamoDB answers the handler issues the request
`removeUserFact(userId, NaN)` and does not respond with "You need to specify
which number fact to remove!". -/
theorem bioCommand_remove_not_rejected (userId : UserId)
    (removeReply showReply : Option (List (List Char))) :
    parseInt ((parseCommandArgs "remove".toList)[1]?) = none ∧
    parseInt ((parseCommandArgs "remove abc".toList)[1]?) = none ∧
    BioEffect.removeUserFact userId none ∈
      bioCommand "remove".toList userId removeReply showReply ∧
    BioEffect.respond BioMessage.needIndex ∉
      bioCommand "remove".toList userId removeReply showReply ∧
    BioEffect.removeUserFact userId none ∈
      bioCommand "remove abc".toList userId removeReply showReply ∧
    BioEffect.respond BioMessage.needIndex ∉
      bioCommand "remove abc".toList userId removeReply showReply := by
  have h1 : parseCommandArgs "remove".toList = ["remove".toList] := by decide
  have h2 : parseCommandArgs "remove abc".toList = ["remove".toList, "abc".toList] := by decide
  have p1 : parseInt (["remove".toList][1]?) = none := by decide
  have p2 : parseInt (["remove".toList, "abc".toList][1]?) = none := by decide
  have e1 : bioCommand "remove".toList userId removeReply showReply =
      [BioEffect.ack, BioEffect.removeUserFact userId none,
        BioEffect.respond (match removeReply with
          | none => BioMessage.noProfile
          | some _ => BioMessage.unableToDelete none)] := by
    unfold bioCommand
    simp only [h1, p1]
    cases removeReply <;> rfl
  have e2 : bioCommand "remove abc".toList userId removeReply showReply =
      [BioEffect.ack, BioEffect.removeUserFact userId none,
        BioEffect.respond (match removeReply with
          | none => BioMessage.noProfile
          | some _ => BioMessage.unableToDelete none)] := by
    unfold bioCommand
    simp only [h2, p2]
    cases removeReply <;> rfl
  refine ⟨by rw [h1]; exact p1, by rw [h2]; exact p2, ?_, ?_, ?_, ?_⟩
  · rw [e1]; simp
  · exact bioCommand_never_needIndex _ _ _ _
  · rw [e2]; simp
  · exact bioCommand_never_needIndex _ _ _ _

end Bagel
